import Mathlib

/-!
Verification of the syllabus assignment-extraction pipeline
(`backend/server.js` and the OpenAI service module).

The JavaScript source is shallowly embedded as executable Lean functions:
JSON values become an inductive type, `JSON.parse` becomes a fuel-indexed
recursive parser over character lists (numeric literals are modelled as
integers; floating-point JSON numbers are out of scope for every claim),
JavaScript property accesses that can throw (`null.items`, `null.title`)
are modelled with `Except`, and the Express handlers become pure functions
from request data to the list of responses written.
-/

/-- JSON values as produced by `JSON.parse`.  Numbers are modelled as
integers (no claim depends on fractional values); objects are ordered
field lists, mirroring JavaScript property insertion order. -/
inductive Json where
  | null
  | bool (b : Bool)
  | num (n : Int)
  | str (s : String)
  | arr (elems : List Json)
  | obj (fields : List (String × Json))

/-- Character constants, named to keep the source free of delimiter
literals. -/
def btChar : Char := Char.ofNat 96

def quoteChar : Char := Char.ofNat 34

def backslashChar : Char := Char.ofNat 92

def lbraceChar : Char := Char.ofNat 123

def rbraceChar : Char := Char.ofNat 125

/-- First-match field lookup.  The parser keeps keys unique (later
duplicates overwrite in place, as `JSON.parse` does), so first-match
lookup agrees with JavaScript property access. -/
def lookupField : List (String × Json) → String → Option Json
  | [], _ => none
  | (k, v) :: fs, key => if k = key then some v else lookupField fs key

/-- JavaScript truthiness of a JSON value (`if (x)`).  Arrays and objects
are always truthy; `0`, `""`, `false` and `null` are falsy. -/
def truthy : Json → Bool
  | .null => false
  | .bool b => b
  | .num n => n != 0
  | .str s => s != ""
  | .arr _ => true
  | .obj _ => true

/-- Truthiness of `x.someField` where a missing field reads as
`undefined` (falsy). -/
def jsTruthyOpt : Option Json → Bool
  | some v => truthy v
  | none => false

/-- The canonical empty result `{ items: [] }`. -/
def emptyResult : Json := Json.obj [("items", Json.arr [])]

/-- V8 error message raised by `null.items` / `null.title` property
reads. -/
def nullReadMsg : String := "Cannot read properties of null"

/-- Models the JavaScript read `x.items`: throws on `null`, yields the
field on objects, and `undefined` (here `none`) on everything else. -/
def jsItemsAccess : Json → Except String (Option Json)
  | .null => .error nullReadMsg
  | .obj fs => .ok (lookupField fs "items")
  | _ => .ok none

/-- The heuristic field scan (`Object.keys(parsed).find(...)` in the
service module): find the first field whose value is a nonempty array
whose first element has a truthy `title`.  Reading `.title` off a `null`
element throws (modelled as `.error`).  The JavaScript `find` returns the
KEY, which is then tested for truthiness: a match under the empty-string
key is therefore discarded (empty string is falsy), ending the scan. -/
def scanProps : List (String × Json) → Except String (Option (List Json))
  | [] => .ok none
  | (k, v) :: fs =>
    match v with
    | .arr (h :: t) =>
      match h with
      | .null => .error nullReadMsg
      | .obj hf =>
        if jsTruthyOpt (lookupField hf "title") then
          if k = "" then .ok none else .ok (some (h :: t))
        else scanProps fs
      | _ => scanProps fs
    | _ => scanProps fs

/-- The recovery ladder applied to a successfully parsed JSON value
(service module lines 158-181 and 190-210): pass the value through when
`parsed.items` is truthy, wrap bare arrays as `{ items: a }`, otherwise
scan object fields heuristically, degrading to `{ items: [] }`.
`.error` marks the property reads that throw in JavaScript. -/
def ladder (j : Json) : Except String Json :=
  match jsItemsAccess j with
  | .error m => .error m
  | .ok itemsOpt =>
    if jsTruthyOpt itemsOpt then .ok j
    else
      match j with
      | .arr a => .ok (Json.obj [("items", Json.arr a)])
      | .obj fs =>
        match scanProps fs with
        | .error m => .error m
        | .ok (some a) => .ok (Json.obj [("items", Json.arr a)])
        | .ok none => .ok emptyResult
      | _ => .ok emptyResult

/-- Prefix test on character lists (mirrors `List.isPrefixOf`, defined
locally so its unfolding behaviour is under our control). -/
def isPfx : List Char → List Char → Bool
  | [], _ => true
  | _ :: _, [] => false
  | a :: as, b :: bs => a == b && isPfx as bs

/-- Split a character list at the FIRST occurrence of `pat`, returning
the part before and the part after the occurrence.  Models where a
leftmost regex match starts. -/
def splitFirst (pat : List Char) : List Char → Option (List Char × List Char)
  | [] => if isPfx pat [] then some ([], []) else none
  | c :: rest =>
    if isPfx pat (c :: rest) then some ([], (c :: rest).drop pat.length)
    else
      match splitFirst pat rest with
      | some (b, a) => some (c :: b, a)
      | none => none

/-- Split a character list at the LAST occurrence of `pat`.  Models the
end of a greedy `([\s\S]*)` capture followed by `pat`. -/
def splitLast (pat : List Char) : List Char → Option (List Char × List Char)
  | [] => if isPfx pat [] then some ([], []) else none
  | c :: rest =>
    match splitLast pat rest with
    | some (b, a) => some (c :: b, a)
    | none =>
      if isPfx pat (c :: rest) then some ([], (c :: rest).drop pat.length)
      else none

/-- Opener of a json-tagged fenced block (three backticks, `json`, a
newline). -/
def jsonOpenChars : List Char := "\x60\x60\x60json\n".data

/-- Opener of an untagged fenced block (three backticks and a
newline). -/
def plainOpenChars : List Char := "\x60\x60\x60\n".data

/-- Closer of a fenced block (a newline and three backticks). -/
def closeChars : List Char := "\n\x60\x60\x60".data

/-- Fenced-block extraction, modelling
`content.match(/\x60\x60\x60json\n([\s\S]*)\n\x60\x60\x60/) ||
content.match(/\x60\x60\x60\n([\s\S]*)\n\x60\x60\x60/)` from the service
module: the capture runs from the first opener to the last closer after
it; if the json-tagged pattern has no match the untagged pattern is tried
on the whole content. -/
def fencedExtract (l : List Char) : Option (List Char) :=
  match splitFirst jsonOpenChars l with
  | some (_, aft) =>
    match splitLast closeChars aft with
    | some (mid, _) => some mid
    | none =>
      match splitFirst plainOpenChars l with
      | some (_, aft2) =>
        match splitLast closeChars aft2 with
        | some (mid, _) => some mid
        | none => none
      | none => none
  | none =>
    match splitFirst plainOpenChars l with
    | some (_, aft2) =>
      match splitLast closeChars aft2 with
      | some (mid, _) => some mid
      | none => none
    | none => none

/-- JSON whitespace accepted by `JSON.parse` between tokens. -/
def isWsChar (c : Char) : Bool := c == ' ' || c == '\t' || c == '\n' || c == '\r'

/-- Drop leading JSON whitespace. -/
def skipWs : List Char → List Char
  | [] => []
  | c :: rest => if isWsChar c then skipWs rest else c :: rest

def isDigitChar (c : Char) : Bool := 48 ≤ c.toNat && c.toNat ≤ 57

/-- Value of a hexadecimal digit, if any. -/
def hexVal (c : Char) : Option Nat :=
  if 48 ≤ c.toNat && c.toNat ≤ 57 then some (c.toNat - 48)
  else if 97 ≤ c.toNat && c.toNat ≤ 102 then some (c.toNat - 87)
  else if 65 ≤ c.toNat && c.toNat ≤ 70 then some (c.toNat - 55)
  else none

/-- Update a field list the way JavaScript object construction does: a
duplicate key overwrites the value in place, keeping the original
position; a new key is appended. -/
def insertField : List (String × Json) → String → Json → List (String × Json)
  | [], k, v => [(k, v)]
  | (k', v') :: fs, k, v =>
    if k' = k then (k', v) :: fs else (k', v') :: insertField fs k v

/-- Parse the body of a JSON string literal (after the opening quote),
returning the decoded characters and the remainder after the closing
quote.  Handles the JSON escapes; unescaped control characters are
rejected as `JSON.parse` does.  `\uXXXX` is decoded as a single code
point (surrogate-pair recombination is out of scope). -/
def parseStringBody (fuel : Nat) (l : List Char) : Option (List Char × List Char) :=
  match fuel with
  | 0 => none
  | fuel + 1 =>
    match l with
    | [] => none
    | c :: rest =>
      if c == quoteChar then some ([], rest)
      else if c == backslashChar then
        match rest with
        | [] => none
        | e :: rest2 =>
          if e == quoteChar then (parseStringBody fuel rest2).map (fun p => (quoteChar :: p.1, p.2))
          else if e == backslashChar then (parseStringBody fuel rest2).map (fun p => (backslashChar :: p.1, p.2))
          else if e == '/' then (parseStringBody fuel rest2).map (fun p => ('/' :: p.1, p.2))
          else if e == 'b' then (parseStringBody fuel rest2).map (fun p => (Char.ofNat 8 :: p.1, p.2))
          else if e == 'f' then (parseStringBody fuel rest2).map (fun p => (Char.ofNat 12 :: p.1, p.2))
          else if e == 'n' then (parseStringBody fuel rest2).map (fun p => ('\n' :: p.1, p.2))
          else if e == 'r' then (parseStringBody fuel rest2).map (fun p => ('\r' :: p.1, p.2))
          else if e == 't' then (parseStringBody fuel rest2).map (fun p => ('\t' :: p.1, p.2))
          else if e == 'u' then
            match rest2 with
            | h1 :: h2 :: h3 :: h4 :: rest3 =>
              match hexVal h1, hexVal h2, hexVal h3, hexVal h4 with
              | some a, some b, some c2, some d =>
                (parseStringBody fuel rest3).map
                  (fun p => (Char.ofNat (a * 4096 + b * 256 + c2 * 16 + d) :: p.1, p.2))
              | _, _, _, _ => none
            | _ => none
          else none
      else if c.toNat < 32 then none
      else (parseStringBody fuel rest).map (fun p => (c :: p.1, p.2))

def digitsToInt (l : List Char) : Int :=
  l.foldl (fun acc c => acc * 10 + (Int.ofNat (c.toNat - 48))) 0

/-- Does the remainder start a fraction or exponent?  Such numbers are
floating point and outside this integer model; the parser rejects them
(documented modelling restriction, exercised by no claim). -/
def isFloatMark : List Char → Bool
  | c :: _ => c == '.' || c == 'e' || c == 'E'
  | [] => false

/-- Digits of a JSON integer literal after the optional minus sign:
`0` alone, or a nonzero digit followed by digits (leading zeros
rejected, as in JSON). -/
def parseNumberBody (neg : Bool) : List Char → Option (Json × List Char)
  | [] => none
  | c :: r =>
    if c == '0' then
      if isFloatMark r then none
      else
        match r with
        | d :: _ => if isDigitChar d then none else some (Json.num 0, r)
        | [] => some (Json.num 0, r)
    else if isDigitChar c then
      if isFloatMark ((c :: r).dropWhile isDigitChar) then none
      else
        some (Json.num (if neg then -(digitsToInt ((c :: r).takeWhile isDigitChar))
                        else digitsToInt ((c :: r).takeWhile isDigitChar)),
              (c :: r).dropWhile isDigitChar)
    else none

/-- Parse a JSON integer literal: optional minus sign, then digits. -/
def parseNumber (l : List Char) : Option (Json × List Char) :=
  match l with
  | c :: r => if c == '-' then parseNumberBody true r else parseNumberBody false l
  | [] => none

mutual

/-- Fuel-indexed JSON value parser (the model of `JSON.parse`).  The fuel
only ever runs out on inputs that fail anyway; `parseJsonChars` supplies
`length + 1`, enough for every successful parse. -/
def parseValue : Nat → List Char → Option (Json × List Char)
  | 0, _ => none
  | fuel + 1, l =>
    match skipWs l with
    | [] => none
    | c :: rest =>
      if c == lbraceChar then
        match skipWs rest with
        | d :: rest2 =>
          if d == rbraceChar then some (Json.obj [], rest2)
          else parseMembers fuel (d :: rest2) []
        | [] => none
      else if c == '[' then
        match skipWs rest with
        | d :: rest2 =>
          if d == ']' then some (Json.arr [], rest2)
          else parseElems fuel (d :: rest2) []
        | [] => none
      else if c == quoteChar then
        match parseStringBody (fuel + 1) rest with
        | some (sChars, r) => some (Json.str (String.mk sChars), r)
        | none => none
      else if c == 't' then
        if isPfx "rue".data rest then some (Json.bool true, rest.drop 3) else none
      else if c == 'f' then
        if isPfx "alse".data rest then some (Json.bool false, rest.drop 4) else none
      else if c == 'n' then
        if isPfx "ull".data rest then some (Json.null, rest.drop 3) else none
      else if c == '-' || isDigitChar c then parseNumber (c :: rest)
      else none

/-- Parse the members of a JSON object, positioned at a key. -/
def parseMembers : Nat → List Char → List (String × Json) → Option (Json × List Char)
  | 0, _, _ => none
  | fuel + 1, l, acc =>
    match skipWs l with
    | c :: rest =>
      if c == quoteChar then
        match parseStringBody (fuel + 1) rest with
        | some (kChars, r1) =>
          match skipWs r1 with
          | d :: r2 =>
            if d == ':' then
              match parseValue fuel r2 with
              | some (v, r3) =>
                match skipWs r3 with
                | e :: r4 =>
                  if e == ',' then parseMembers fuel r4 (insertField acc (String.mk kChars) v)
                  else if e == rbraceChar then
                    some (Json.obj (insertField acc (String.mk kChars) v), r4)
                  else none
                | [] => none
              | none => none
            else none
          | [] => none
        | none => none
      else none
    | [] => none

/-- Parse the elements of a JSON array, positioned at a value. -/
def parseElems : Nat → List Char → List Json → Option (Json × List Char)
  | 0, _, _ => none
  | fuel + 1, l, acc =>
    match parseValue fuel l with
    | some (v, r1) =>
      match skipWs r1 with
      | e :: r2 =>
        if e == ',' then parseElems fuel r2 (acc ++ [v])
        else if e == ']' then some (Json.arr (acc ++ [v]), r2)
        else none
      | [] => none
    | none => none

end

/-- The model of `JSON.parse` on a character list: a single value with
only whitespace after it. -/
def parseJsonChars (l : List Char) : Option Json :=
  match parseValue (l.length + 1) l with
  | some (j, rest) => if skipWs rest = [] then some j else none
  | none => none

/-- The model of `JSON.parse` on a string. -/
def parseJson (s : String) : Option Json := parseJsonChars s.data

/-- The fenced-block recovery branch (service module lines 183-219):
extract a fenced block from the content, parse it, run the ladder;
every failure (no block, unparseable block, ladder throw) degrades to
`{ items: [] }`. -/
def fencedChars (l : List Char) : Json :=
  match fencedExtract l with
  | some inner =>
    match parseJsonChars inner with
    | some j =>
      match ladder j with
      | .ok a => a
      | .error _ => emptyResult
    | none => emptyResult
  | none => emptyResult

/-- The full Response Normalizer (service module lines 152-220): parse
the content directly and run the recovery ladder; if parsing fails or a
ladder property read throws, fall back to fenced-block extraction. -/
def normChars (l : List Char) : Json :=
  match parseJsonChars l with
  | some j =>
    match ladder j with
    | .ok a => a
    | .error _ => fencedChars l
  | none => fencedChars l

/-- The Response Normalizer on a model output string. -/
def normalizeContent (s : String) : Json := normChars s.data

/-- The `items` field of a result object, if any. -/
def itemsOf : Json → Option Json
  | .obj fs => lookupField fs "items"
  | _ => none

def isArrayJson : Json → Bool
  | .arr _ => true
  | _ => false

/-- A result is well formed when it is an object whose `items` field is
present and truthy (every array, including `[]`, is truthy). -/
def wellFormed (j : Json) : Bool := jsTruthyOpt (itemsOf j)

/-- The length ceiling applied to the syllabus text before it is embedded
in the prompt (`MAX_LENGTH` in the service module). -/
def MAX_LENGTH : Nat := 15000

/-- The literal appended when the syllabus text is truncated. -/
def truncMarker : String := "... [text truncated for token limit]"

/-- The truncation step of the Prompt Builder (service module lines
24-27): `syllabusText.length > MAX_LENGTH ?
syllabusText.substring(0, MAX_LENGTH) + marker : syllabusText`.
Lengths are modelled at code-point granularity. -/
def truncatedText (syllabusText : String) : String :=
  if syllabusText.length > MAX_LENGTH
  then String.mk (syllabusText.data.take MAX_LENGTH ++ truncMarker.data)
  else syllabusText

/-- The fixed instruction template that precedes the (possibly truncated)
syllabus text in the prompt (service module lines 29-81; the template
ends with the interpolation of the truncated text). -/
def promptHead : String := "You are an intelligent assistant that extracts academic assignments from a syllabus.\n\nThe syllabus text may be structured or unstructured. Your task is to identify all student-facing deliverables, and return them in JSON format.\n\nFor each item, identify:\n- \x60title\x60: Name of the deliverable\n- \x60type\x60: One of [\x27assignment\x27, \x27quiz\x27, \x27exam\x27, \x27paper\x27, \x27project\x27] \n- \x60description\x60: A short summary if available\n- \x60due_date\x60: The date it\x27s due (in YYYY-MM-DD format)\n- \x60start_date\x60: Only include this if the type is \x27paper\x27 or \x27project\x27, and the start date is mentioned\n\nIMPORTANT: Your response MUST be a properly formatted JSON object containing an array called \"items\". The structure should look like this:\n\n\x7b\n  \"items\": [\n    \x7b\n      \"title\": \"Final Project Presentation\",\n      \"type\": \"project\",\n      \"start_date\": \"2025-03-10\",\n      \"due_date\": \"2025-04-01\",\n      \"description\": \"Team presentation on final project findings.\"\n    \x7d,\n    \x7b\n      \"title\": \"Quiz 2\",\n      \"type\": \"quiz\",\n      \"due_date\": \"2025-02-15\",\n      \"description\": \"Covers chapters 4–6.\"\n    \x7d\n  ]\n\x7d\n\nOr if no assignments are found:\n\x7b\n  \"items\": []\n\x7d\n\nTips for extracting dates:\n- If a date is mentioned like \"September 15\", convert it to \"2025-09-15\" format.\n- If a day of week is mentioned like \"due Friday\", look for context to determine the date.\n- If relative dates are mentioned like \"Week 3\", try to resolve to an actual date if possible.\n- If no year is specified, assume the current academic year (2025).\n- IMPORTANT: Even if a date is unclear, make your best estimate rather than excluding the item.\n\nBe generous in your extraction. Even if you\x27re not 100% sure something is an assignment, include it if it has:\n1. A title or clear description\n2. Any mention of a due date or deadline\n3. Language that suggests submission, completion, or evaluation\n\nIf you can\x27t find any assignments at all, still return: \x7b\"items\": []\x7d\n\nNow process the following syllabus text:\n\n"

/-- The Prompt Builder: the fixed template followed by the truncated
syllabus text. -/
def buildPrompt (syllabusText : String) : String :=
  promptHead ++ truncatedText syllabusText

/-- Outcome of one model API call as seen by the invoker: `ok env`
settles successfully before the shared 45-second deadline (with `env`
the extracted content, or `none` when the response envelope has no
usable `choices[0]`), `err` rejects before the deadline, `slow` does not
settle before the deadline. -/
inductive ModelOutcome where
  | ok (env : Option String)
  | err
  | slow

def primaryFails : ModelOutcome → Bool
  | .ok _ => false
  | _ => true

/-- Whether the secondary attempt fails.  The 45-second timeout promise
is created once and raced against BOTH calls: when the primary timed out
(`slow`) the shared timeout promise has already rejected, so the
secondary race rejects immediately whatever the secondary would do. -/
def secondaryFails (p s : ModelOutcome) : Bool :=
  match p with
  | .slow => true
  | _ => primaryFails s

/-- Number of model API calls issued (`openai.chat.completions.create`
invocations): one when the primary succeeds, two otherwise — the
secondary is issued exactly once from the catch block.  No calls happen
when the missing-key check throws first. -/
def modelCallCount (apiKeySet : Bool) (p : ModelOutcome) : Nat :=
  if apiKeySet then (match p with | .ok _ => 1 | _ => 2) else 0

/-- Result of the race structure of the Model Invoker (service module
lines 91-138): the successful envelope, or `none` when both attempts
failed (the code then returns `{ items: [] }` directly). -/
def raceResult (p s : ModelOutcome) : Option (Option String) :=
  match p with
  | .ok e => some e
  | .err =>
    match s with
    | .ok e => some e
    | _ => none
  | .slow => none

/-- The whole `extractAssignmentsFromSyllabus` function for a given model
behaviour: the missing-key throw is caught by the outer catch (which
returns `{ items: [] }`), a double model failure returns `{ items: [] }`
from the fallback catch, a response without `choices[0]` returns
`{ items: [] }`, and otherwise the content goes through the Response
Normalizer.  The function never throws: every JavaScript throw site is
absorbed by a catch that returns a value. -/
def extractAssignmentsFromSyllabus (apiKeySet : Bool) (p s : ModelOutcome) : Json :=
  if apiKeySet then
    match raceResult p s with
    | none => emptyResult
    | some none => emptyResult
    | some (some content) => normalizeContent content
  else emptyResult

/-- Responses the `/api/parse-assignments` handler can write. -/
inductive Resp where
  | badRequest
  | accepted
  | okJson (assignments : Json)
  | serverError (msg : String)

/-- V8 error message for assignment to a `const` binding, thrown by
`assignments = { items: [ ... ] }` at server.js line 224 because
`assignments` is declared `const` at line 211. -/
def constAssignMsg : String := "Assignment to constant variable."

/-- Coordinator state: responses written so far and the `hasResponded`
flag. -/
structure HandlerSt where
  sent : List Resp
  hasResponded : Bool

def handlerStart : HandlerSt := ⟨[], false⟩

/-- The 10-second timer callback (server.js lines 188-207): if nothing
has been sent yet, mark responded and write the 202. -/
def timerFire (st : HandlerSt) : HandlerSt :=
  if st.hasResponded then st
  else { sent := st.sent ++ [Resp.accepted], hasResponded := true }

/-- The catch-block write (server.js lines 245-259): write a 500 only if
nothing has been sent. -/
def catchWrite (st : HandlerSt) (m : String) : HandlerSt :=
  if st.hasResponded then st
  else { sent := st.sent ++ [Resp.serverError m], hasResponded := true }

/-- The JavaScript expression `assignments.items ? assignments.items.length : 0`
(server.js line 218): `some n` when the count is the number `n`, `none`
when `items` is truthy but not an array so `.length` is `undefined`. -/
def jsCount (itemsOpt : Option Json) : Option Nat :=
  match itemsOpt with
  | none => some 0
  | some v =>
    if truthy v then
      match v with
      | .arr a => some a.length
      | _ => none
    else some 0

/-- Completion of the extraction (server.js lines 211-259).  When a 202
was already sent the result is only logged.  Otherwise: reading
`assignments.items` off `null` would throw into the catch; a count of
exactly zero runs the `assignments = { ... }` substitution, which throws
`TypeError: Assignment to constant variable.` because `assignments` is a
`const` — the catch then writes the 500; any other count writes the
200. -/
def completionStep (st : HandlerSt) (r : Json) : HandlerSt :=
  if st.hasResponded then st
  else
    match jsItemsAccess r with
    | .error m => catchWrite st m
    | .ok itemsOpt =>
      if jsCount itemsOpt = some 0 then catchWrite st constAssignMsg
      else { sent := st.sent ++ [Resp.okJson r], hasResponded := true }

/-- The `/api/parse-assignments` handler (server.js lines 166-275) for
one request: `textValid` is the body check, `finishesFast` tells whether
the extraction settles before the 10-second timer fires, `r` is the
extraction result.  Returns the list of responses written, in order. -/
def parseAssignmentsResponses (textValid : Bool) (finishesFast : Bool) (r : Json) : List Resp :=
  if textValid then
    if finishesFast then (completionStep handlerStart r).sent
    else (completionStep (timerFire handlerStart) r).sent
  else (handlerStart.sent ++ [Resp.badRequest])

/-- An upload to `/api/extract-text`: either no file, or a file with a
declared MIME type whose text extraction succeeds or fails. -/
inductive UploadReq where
  | noFile
  | withFile (mimetype : String) (extractionOk : Bool)

/-- Reply abstraction: HTTP status plus the `error` body field, if
any. -/
structure HttpReply where
  status : Nat
  errorMsg : Option String

def pdfMime : String := "application/pdf"

def docxMime : String :=
  "application/vnd.openxmlformats-officedocument.wordprocessingml.document"

def rejectedTypeMsg : String := "Only PDF and DOCX files are allowed"

/-- The multer `fileFilter` (server.js lines 21-31): accept exactly PDF
and DOCX MIME types, otherwise call back with an Error. -/
def fileFilterAccepts (mimetype : String) : Bool :=
  mimetype = pdfMime || mimetype = docxMime

/-- The `/api/extract-text` stack (server.js lines 126-163 plus the
error middleware at lines 278-281).  When `fileFilter` rejects, multer
forwards the Error to `next`, and the final error-handling middleware
answers `500 { error: err.message }` — the route handler (with its
400 branches) never runs for such a file. -/
def extractTextApp : UploadReq → HttpReply
  | .noFile => ⟨400, some "No file uploaded"⟩
  | .withFile mimetype extractionOk =>
    if fileFilterAccepts mimetype then
      if extractionOk then ⟨200, none⟩
      else ⟨500, some "Text extraction failed"⟩
    else ⟨500, some rejectedTypeMsg⟩

/-- Wrap a payload in a json-tagged fenced block. -/
def jsonFenceWrap (p : String) : String :=
  String.mk (jsonOpenChars ++ (p.data ++ closeChars))

/-- Wrap a payload in an untagged fenced block. -/
def plainFenceWrap (p : String) : String :=
  String.mk (plainOpenChars ++ (p.data ++ closeChars))

/-- Scanning forward, does a double quote occur strictly before any
newline and before the end of the list?  Used to state the shape
invariant of parseable JSON text: a backtick can only sit inside a
string literal, whose closing quote arrives before any literal newline
(raw control characters are illegal inside JSON strings). -/
def closesBeforeNl : List Char → Bool
  | [] => false
  | c :: rest =>
    if c == quoteChar then true
    else if c == '\n' then false
    else closesBeforeNl rest

/-- Every backtick in the list is followed by a double quote before any
newline or the end.  This holds for every string accepted by the JSON
parser and rules out every fenced-block delimiter (each needs either a
newline right after a backtick run, or a backtick run reaching the end
of the payload). -/
def btClosed : List Char → Bool
  | [] => true
  | c :: rest => (!(c == btChar) || closesBeforeNl rest) && btClosed rest

/-- A sample syllabus text one character over the truncation ceiling. -/
def longSample : String := String.mk (List.replicate 15001 'a')

theorem wellFormed_emptyResult : wellFormed emptyResult = true := rfl

/-- Every successful run of the recovery ladder yields an object whose
`items` field is present and truthy. -/
theorem ladder_ok_wellFormed (j a : Json) (h : ladder j = .ok a) : wellFormed a = true := by
  cases j with
  | null => simp [ladder, jsItemsAccess] at h
  | bool b =>
    simp only [ladder, jsItemsAccess, jsTruthyOpt] at h
    simp only [Bool.false_eq_true, if_false, Except.ok.injEq] at h
    subst h; exact wellFormed_emptyResult
  | num n =>
    simp only [ladder, jsItemsAccess, jsTruthyOpt] at h
    simp only [Bool.false_eq_true, if_false, Except.ok.injEq] at h
    subst h; exact wellFormed_emptyResult
  | str s =>
    simp only [ladder, jsItemsAccess, jsTruthyOpt] at h
    simp only [Bool.false_eq_true, if_false, Except.ok.injEq] at h
    subst h; exact wellFormed_emptyResult
  | arr elems =>
    simp only [ladder, jsItemsAccess, jsTruthyOpt] at h
    simp only [Bool.false_eq_true, if_false, Except.ok.injEq] at h
    subst h; rfl
  | obj fs =>
    simp only [ladder, jsItemsAccess] at h
    by_cases ht : jsTruthyOpt (lookupField fs "items") = true
    · rw [if_pos ht] at h
      cases h
      simpa [wellFormed, itemsOf] using ht
    · rw [if_neg ht] at h
      cases hs : scanProps fs with
      | error m => rw [hs] at h; cases h
      | ok o =>
        rw [hs] at h
        cases o with
        | some l =>
          simp only [Except.ok.injEq] at h
          subst h; rfl
        | none =>
          simp only [Except.ok.injEq] at h
          subst h; exact wellFormed_emptyResult

/-- The fenced-block branch always produces a well-formed result. -/
theorem fencedChars_wellFormed (l : List Char) : wellFormed (fencedChars l) = true := by
  unfold fencedChars
  cases hf : fencedExtract l with
  | none => exact wellFormed_emptyResult
  | some inner =>
    dsimp only
    cases hp : parseJsonChars inner with
    | none => exact wellFormed_emptyResult
    | some j =>
      dsimp only
      cases hl : ladder j with
      | ok a => exact ladder_ok_wellFormed j a hl
      | error m => exact wellFormed_emptyResult

/-- The Response Normalizer always produces an object whose `items` field
is present and truthy (never throws, never yields missing or null
`items`). -/
theorem normChars_wellFormed (l : List Char) : wellFormed (normChars l) = true := by
  unfold normChars
  cases hp : parseJsonChars l with
  | none => exact fencedChars_wellFormed l
  | some j =>
    dsimp only
    cases hl : ladder j with
    | ok a => exact ladder_ok_wellFormed j a hl
    | error m => exact fencedChars_wellFormed l

/-- A content string starting with a backtick is not valid JSON. -/
theorem parseValue_btHead (f : Nat) (l : List Char) :
    parseValue f (btChar :: l) = none := by
  cases f with
  | zero => rfl
  | succ n => rfl

theorem parseJsonChars_btHead (l : List Char) :
    parseJsonChars (btChar :: l) = none := by
  unfold parseJsonChars
  rw [parseValue_btHead]

/-- One non-matching step of the first-occurrence search. -/
theorem splitFirst_cons_none (pat : List Char) (c : Char) (rest : List Char)
    (h1 : isPfx pat (c :: rest) = false) (h2 : splitFirst pat rest = none) :
    splitFirst pat (c :: rest) = none := by
  simp [splitFirst, h1, h2]

/-- The last occurrence of the closer in `p ++ closer` is the final one,
whatever `p` contains. -/
theorem splitLast_closer (p : List Char) :
    splitLast closeChars (p ++ closeChars) = some (p, []) := by
  induction p with
  | nil => rfl
  | cons c rest ih => simp [List.cons_append, splitLast, ih]

theorem splitFirst_jsonOpen_self (x : List Char) :
    splitFirst jsonOpenChars (jsonOpenChars ++ x) = some ([], x) := rfl

theorem splitFirst_plainOpen_self (x : List Char) :
    splitFirst plainOpenChars (plainOpenChars ++ x) = some ([], x) := rfl

theorem isPfx_jsonOpen_plain4 (x : List Char) :
    isPfx jsonOpenChars (btChar :: btChar :: btChar :: '\n' :: x) = false := rfl

theorem isPfx_jsonOpen_plain3 (x : List Char) :
    isPfx jsonOpenChars (btChar :: btChar :: '\n' :: x) = false := rfl

theorem isPfx_jsonOpen_plain2 (x : List Char) :
    isPfx jsonOpenChars (btChar :: '\n' :: x) = false := rfl

theorem isPfx_jsonOpen_plain1 (x : List Char) :
    isPfx jsonOpenChars ('\n' :: x) = false := rfl

/-- Extraction from a json-tagged fence recovers exactly the payload:
the opener matches at position zero and the final closer is the last
occurrence. -/
theorem fencedExtract_jsonFence (p : List Char) :
    fencedExtract (jsonOpenChars ++ (p ++ closeChars)) = some p := by
  unfold fencedExtract
  rw [splitFirst_jsonOpen_self]
  dsimp only
  rw [splitLast_closer]

/-- Decomposition of a successful prefix test. -/
theorem isPfx_iff_append (pat : List Char) : ∀ l : List Char,
    isPfx pat l = true ↔ ∃ r, l = pat ++ r := by
  induction pat with
  | nil =>
    intro l
    simp [isPfx]
  | cons a as ih =>
    intro l
    cases l with
    | nil => simp [isPfx]
    | cons b bs =>
      constructor
      · intro h
        have h' : (a == b) = true ∧ isPfx as bs = true := by
          simpa [isPfx, Bool.and_eq_true] using h
        obtain ⟨r, hr⟩ := (ih bs).mp h'.2
        have hab : a = b := beq_iff_eq.mp h'.1
        subst hab
        exact ⟨r, by rw [List.cons_append, hr]⟩
      · rintro ⟨r, hr⟩
        rw [List.cons_append] at hr
        injection hr with h1 h2
        simp [isPfx, h1, (ih bs).mpr ⟨r, h2⟩]

theorem closesBeforeNl_cons_quote (r : List Char) :
    closesBeforeNl (quoteChar :: r) = true := by
  simp [closesBeforeNl]

theorem closesBeforeNl_cons_other (c : Char) (r : List Char)
    (hq : c ≠ quoteChar) (hn : c ≠ '\n') (h : closesBeforeNl r = true) :
    closesBeforeNl (c :: r) = true := by
  simp [closesBeforeNl, beq_eq_false_iff_ne.mpr hq, beq_eq_false_iff_ne.mpr hn, h]

/-- A scan that already found its quote still finds it after appending. -/
theorem closesBeforeNl_append (l x : List Char) (h : closesBeforeNl l = true) :
    closesBeforeNl (l ++ x) = true := by
  induction l with
  | nil => simp [closesBeforeNl] at h
  | cons c r ih =>
    simp only [closesBeforeNl, List.cons_append] at h ⊢
    split at h
    · rename_i hq
      simp [hq]
    · rename_i hq
      split at h
      · simp at h
      · rename_i hn
        rw [if_neg hq, if_neg hn]
        exact ih h

theorem btClosed_cons_elim (c : Char) (rest : List Char)
    (h : btClosed (c :: rest) = true) :
    btClosed rest = true ∧ (c = btChar → closesBeforeNl rest = true) := by
  simp only [btClosed, Bool.and_eq_true, Bool.or_eq_true, Bool.not_eq_true'] at h
  refine ⟨h.2, fun hc => ?_⟩
  rcases h.1 with hne | hcl
  · subst hc
    simp at hne
  · exact hcl

theorem btClosed_cons_of_ne (c : Char) (rest : List Char) (hc : c ≠ btChar)
    (h : btClosed rest = true) : btClosed (c :: rest) = true := by
  simp [btClosed, h, beq_eq_false_iff_ne.mpr hc]

theorem btClosed_cons_bt (rest : List Char) (hcl : closesBeforeNl rest = true)
    (h : btClosed rest = true) : btClosed (btChar :: rest) = true := by
  simp [btClosed, hcl, h]

theorem btClosed_append_of_ne (xs rest : List Char)
    (hx : ∀ c ∈ xs, c ≠ btChar) (h : btClosed rest = true) :
    btClosed (xs ++ rest) = true := by
  induction xs with
  | nil => exact h
  | cons c xs' ih =>
    simp only [List.cons_append]
    exact btClosed_cons_of_ne c _ (hx c (List.mem_cons_self c xs'))
      (ih fun d hd => hx d (List.mem_cons_of_mem c hd))

theorem isWsChar_ne_bt (c : Char) (h : isWsChar c = true) : c ≠ btChar := by
  intro he
  subst he
  exact absurd h (by decide)

/-- Whitespace carries no backticks, so the invariant transfers back
over `skipWs`. -/
theorem btClosed_of_skipWs (l : List Char) (h : btClosed (skipWs l) = true) :
    btClosed l = true := by
  induction l with
  | nil => rfl
  | cons c r ih =>
    by_cases hw : isWsChar c = true
    · rw [show skipWs (c :: r) = skipWs r from by simp [skipWs, hw]] at h
      exact btClosed_cons_of_ne c r (isWsChar_ne_bt c hw) (ih h)
    · rwa [show skipWs (c :: r) = c :: r from by simp [skipWs, hw]] at h

theorem isDigitChar_ne_bt (c : Char) (h : isDigitChar c = true) : c ≠ btChar := by
  intro he
  subst he
  exact absurd h (by decide)

theorem hexVal_char_facts (c : Char) (n : Nat) (h : hexVal c = some n) :
    c ≠ quoteChar ∧ c ≠ '\n' ∧ c ≠ btChar := by
  refine ⟨fun he => ?_, fun he => ?_, fun he => ?_⟩
  · rw [he, (by decide : hexVal quoteChar = none)] at h
    exact Option.noConfusion h
  · rw [he, (by decide : hexVal '\n' = none)] at h
    exact Option.noConfusion h
  · rw [he, (by decide : hexVal btChar = none)] at h
    exact Option.noConfusion h

theorem map_eq_some_inv {α β : Type} (g : α → β) (o : Option α) (b : β)
    (h : o.map g = some b) : ∃ a, o = some a := by
  cases o with
  | none => simp at h
  | some a => exact ⟨a, rfl⟩

/-- A successfully parsed string literal body has a double quote before
any literal newline: raw control characters are rejected and the body
ends at a closing quote. -/
theorem stringBody_closes :
    ∀ (fuel : Nat) (l cs rest : List Char),
      parseStringBody fuel l = some (cs, rest) → closesBeforeNl l = true := by
  intro fuel
  induction fuel with
  | zero =>
    intro l cs rest h
    simp [parseStringBody] at h
  | succ f ih =>
    intro l cs rest h
    cases l with
    | nil => simp [parseStringBody] at h
    | cons c r =>
      simp only [parseStringBody] at h
      by_cases hq : (c == quoteChar) = true
      · have hc : c = quoteChar := beq_iff_eq.mp hq
        subst hc
        exact closesBeforeNl_cons_quote r
      · rw [if_neg hq] at h
        have hcq : c ≠ quoteChar := fun he => hq (by rw [he]; simp)
        by_cases hbs : (c == backslashChar) = true
        · rw [if_pos hbs] at h
          have hc : c = backslashChar := beq_iff_eq.mp hbs
          subst hc
          cases r with
          | nil => exact Option.noConfusion h
          | cons e r2 =>
            dsimp only at h
            apply closesBeforeNl_cons_other _ _ (by decide) (by decide)
            by_cases he1 : (e == quoteChar) = true
            · have he : e = quoteChar := beq_iff_eq.mp he1
              subst he
              exact closesBeforeNl_cons_quote r2
            · rw [if_neg he1] at h
              by_cases he2 : (e == backslashChar) = true
              · rw [if_pos he2] at h
                obtain ⟨⟨cs', r'⟩, hps⟩ := map_eq_some_inv _ _ _ h
                have he : e = backslashChar := beq_iff_eq.mp he2
                subst he
                exact closesBeforeNl_cons_other _ _ (by decide) (by decide)
                  (ih r2 cs' r' hps)
              · rw [if_neg he2] at h
                by_cases he3 : (e == '/') = true
                · rw [if_pos he3] at h
                  obtain ⟨⟨cs', r'⟩, hps⟩ := map_eq_some_inv _ _ _ h
                  have he : e = '/' := beq_iff_eq.mp he3
                  subst he
                  exact closesBeforeNl_cons_other _ _ (by decide) (by decide)
                    (ih r2 cs' r' hps)
                · rw [if_neg he3] at h
                  by_cases he4 : (e == 'b') = true
                  · rw [if_pos he4] at h
                    obtain ⟨⟨cs', r'⟩, hps⟩ := map_eq_some_inv _ _ _ h
                    have he : e = 'b' := beq_iff_eq.mp he4
                    subst he
                    exact closesBeforeNl_cons_other _ _ (by decide) (by decide)
                      (ih r2 cs' r' hps)
                  · rw [if_neg he4] at h
                    by_cases he5 : (e == 'f') = true
                    · rw [if_pos he5] at h
                      obtain ⟨⟨cs', r'⟩, hps⟩ := map_eq_some_inv _ _ _ h
                      have he : e = 'f' := beq_iff_eq.mp he5
                      subst he
                      exact closesBeforeNl_cons_other _ _ (by decide) (by decide)
                        (ih r2 cs' r' hps)
                    · rw [if_neg he5] at h
                      by_cases he6 : (e == 'n') = true
                      · rw [if_pos he6] at h
                        obtain ⟨⟨cs', r'⟩, hps⟩ := map_eq_some_inv _ _ _ h
                        have he : e = 'n' := beq_iff_eq.mp he6
                        subst he
                        exact closesBeforeNl_cons_other _ _ (by decide) (by decide)
                          (ih r2 cs' r' hps)
                      · rw [if_neg he6] at h
                        by_cases he7 : (e == 'r') = true
                        · rw [if_pos he7] at h
                          obtain ⟨⟨cs', r'⟩, hps⟩ := map_eq_some_inv _ _ _ h
                          have he : e = 'r' := beq_iff_eq.mp he7
                          subst he
                          exact closesBeforeNl_cons_other _ _ (by decide) (by decide)
                            (ih r2 cs' r' hps)
                        · rw [if_neg he7] at h
                          by_cases he8 : (e == 't') = true
                          · rw [if_pos he8] at h
                            obtain ⟨⟨cs', r'⟩, hps⟩ := map_eq_some_inv _ _ _ h
                            have he : e = 't' := beq_iff_eq.mp he8
                            subst he
                            exact closesBeforeNl_cons_other _ _ (by decide) (by decide)
                              (ih r2 cs' r' hps)
                          · rw [if_neg he8] at h
                            by_cases he9 : (e == 'u') = true
                            · rw [if_pos he9] at h
                              have he : e = 'u' := beq_iff_eq.mp he9
                              subst he
                              cases r2 with
                              | nil => exact Option.noConfusion h
                              | cons x1 t1 =>
                                cases t1 with
                                | nil => exact Option.noConfusion h
                                | cons x2 t2 =>
                                  cases t2 with
                                  | nil => exact Option.noConfusion h
                                  | cons x3 t3 =>
                                    cases t3 with
                                    | nil => exact Option.noConfusion h
                                    | cons x4 r3 =>
                                      dsimp only at h
                                      cases hv1 : hexVal x1 with
                                      | none => rw [hv1] at h; exact Option.noConfusion h
                                      | some a =>
                                        cases hv2 : hexVal x2 with
                                        | none =>
                                          rw [hv1, hv2] at h
                                          exact Option.noConfusion h
                                        | some b =>
                                          cases hv3 : hexVal x3 with
                                          | none =>
                                            rw [hv1, hv2, hv3] at h
                                            exact Option.noConfusion h
                                          | some c2 =>
                                            cases hv4 : hexVal x4 with
                                            | none =>
                                              rw [hv1, hv2, hv3, hv4] at h
                                              exact Option.noConfusion h
                                            | some d =>
                                              rw [hv1, hv2, hv3, hv4] at h
                                              dsimp only at h
                                              obtain ⟨⟨cs', r'⟩, hps⟩ :=
                                                map_eq_some_inv _ _ _ h
                                              obtain ⟨q1, n1, b1⟩ := hexVal_char_facts x1 a hv1
                                              obtain ⟨q2, n2, b2⟩ := hexVal_char_facts x2 b hv2
                                              obtain ⟨q3, n3, b3⟩ := hexVal_char_facts x3 c2 hv3
                                              obtain ⟨q4, n4, b4⟩ := hexVal_char_facts x4 d hv4
                                              exact closesBeforeNl_cons_other _ _
                                                (by decide) (by decide)
                                                (closesBeforeNl_cons_other _ _ q1 n1
                                                  (closesBeforeNl_cons_other _ _ q2 n2
                                                    (closesBeforeNl_cons_other _ _ q3 n3
                                                      (closesBeforeNl_cons_other _ _ q4 n4
                                                        (ih r3 cs' r' hps)))))
                            · rw [if_neg he9] at h
                              exact Option.noConfusion h
        · rw [if_neg hbs] at h
          by_cases h32 : c.toNat < 32
          · rw [if_pos h32] at h
            exact Option.noConfusion h
          · rw [if_neg h32] at h
            obtain ⟨⟨cs', r'⟩, hps⟩ := map_eq_some_inv _ _ _ h
            have hcn : c ≠ '\n' := fun he => h32 (by rw [he]; decide)
            exact closesBeforeNl_cons_other _ _ hcq hcn (ih r cs' r' hps)

/-- The backtick invariant transfers over a parsed string literal body:
any backtick inside it is answered by the closing quote. -/
theorem stringBody_btClosed :
    ∀ (fuel : Nat) (l cs rest : List Char),
      parseStringBody fuel l = some (cs, rest) →
      btClosed rest = true → btClosed l = true := by
  intro fuel
  induction fuel with
  | zero =>
    intro l cs rest h hb
    simp [parseStringBody] at h
  | succ f ih =>
    intro l cs rest h hb
    cases l with
    | nil => simp [parseStringBody] at h
    | cons c r =>
      simp only [parseStringBody] at h
      by_cases hq : (c == quoteChar) = true
      · rw [if_pos hq] at h
        simp only [Option.some.injEq, Prod.mk.injEq] at h
        obtain ⟨-, hrest⟩ := h
        subst hrest
        exact btClosed_cons_of_ne c r
          (fun he => by rw [he] at hq; exact absurd hq (by decide)) hb
      · rw [if_neg hq] at h
        by_cases hbs : (c == backslashChar) = true
        · rw [if_pos hbs] at h
          have hc : c = backslashChar := beq_iff_eq.mp hbs
          subst hc
          cases r with
          | nil => exact Option.noConfusion h
          | cons e r2 =>
            dsimp only at h
            apply btClosed_cons_of_ne _ _ (by decide)
            by_cases he1 : (e == quoteChar) = true
            · rw [if_pos he1] at h
              obtain ⟨⟨cs', r'⟩, hps⟩ := map_eq_some_inv _ _ _ h
              rw [hps] at h
              simp only [Option.map_some', Option.some.injEq, Prod.mk.injEq] at h
              obtain ⟨-, hrest⟩ := h
              subst hrest
              have he : e = quoteChar := beq_iff_eq.mp he1
              subst he
              exact btClosed_cons_of_ne _ _ (by decide) (ih r2 cs' r' hps hb)
            · rw [if_neg he1] at h
              by_cases he2 : (e == backslashChar) = true
              · rw [if_pos he2] at h
                obtain ⟨⟨cs', r'⟩, hps⟩ := map_eq_some_inv _ _ _ h
                rw [hps] at h
                simp only [Option.map_some', Option.some.injEq, Prod.mk.injEq] at h
                obtain ⟨-, hrest⟩ := h
                subst hrest
                have he : e = backslashChar := beq_iff_eq.mp he2
                subst he
                exact btClosed_cons_of_ne _ _ (by decide) (ih r2 cs' r' hps hb)
              · rw [if_neg he2] at h
                by_cases he3 : (e == '/') = true
                · rw [if_pos he3] at h
                  obtain ⟨⟨cs', r'⟩, hps⟩ := map_eq_some_inv _ _ _ h
                  rw [hps] at h
                  simp only [Option.map_some', Option.some.injEq, Prod.mk.injEq] at h
                  obtain ⟨-, hrest⟩ := h
                  subst hrest
                  have he : e = '/' := beq_iff_eq.mp he3
                  subst he
                  exact btClosed_cons_of_ne _ _ (by decide) (ih r2 cs' r' hps hb)
                · rw [if_neg he3] at h
                  by_cases he4 : (e == 'b') = true
                  · rw [if_pos he4] at h
                    obtain ⟨⟨cs', r'⟩, hps⟩ := map_eq_some_inv _ _ _ h
                    rw [hps] at h
                    simp only [Option.map_some', Option.some.injEq, Prod.mk.injEq] at h
                    obtain ⟨-, hrest⟩ := h
                    subst hrest
                    have he : e = 'b' := beq_iff_eq.mp he4
                    subst he
                    exact btClosed_cons_of_ne _ _ (by decide) (ih r2 cs' r' hps hb)
                  · rw [if_neg he4] at h
                    by_cases he5 : (e == 'f') = true
                    · rw [if_pos he5] at h
                      obtain ⟨⟨cs', r'⟩, hps⟩ := map_eq_some_inv _ _ _ h
                      rw [hps] at h
                      simp only [Option.map_some', Option.some.injEq, Prod.mk.injEq] at h
                      obtain ⟨-, hrest⟩ := h
                      subst hrest
                      have he : e = 'f' := beq_iff_eq.mp he5
                      subst he
                      exact btClosed_cons_of_ne _ _ (by decide) (ih r2 cs' r' hps hb)
                    · rw [if_neg he5] at h
                      by_cases he6 : (e == 'n') = true
                      · rw [if_pos he6] at h
                        obtain ⟨⟨cs', r'⟩, hps⟩ := map_eq_some_inv _ _ _ h
                        rw [hps] at h
                        simp only [Option.map_some', Option.some.injEq, Prod.mk.injEq] at h
                        obtain ⟨-, hrest⟩ := h
                        subst hrest
                        have he : e = 'n' := beq_iff_eq.mp he6
                        subst he
                        exact btClosed_cons_of_ne _ _ (by decide) (ih r2 cs' r' hps hb)
                      · rw [if_neg he6] at h
                        by_cases he7 : (e == 'r') = true
                        · rw [if_pos he7] at h
                          obtain ⟨⟨cs', r'⟩, hps⟩ := map_eq_some_inv _ _ _ h
                          rw [hps] at h
                          simp only [Option.map_some', Option.some.injEq,
                            Prod.mk.injEq] at h
                          obtain ⟨-, hrest⟩ := h
                          subst hrest
                          have he : e = 'r' := beq_iff_eq.mp he7
                          subst he
                          exact btClosed_cons_of_ne _ _ (by decide) (ih r2 cs' r' hps hb)
                        · rw [if_neg he7] at h
                          by_cases he8 : (e == 't') = true
                          · rw [if_pos he8] at h
                            obtain ⟨⟨cs', r'⟩, hps⟩ := map_eq_some_inv _ _ _ h
                            rw [hps] at h
                            simp only [Option.map_some', Option.some.injEq,
                              Prod.mk.injEq] at h
                            obtain ⟨-, hrest⟩ := h
                            subst hrest
                            have he : e = 't' := beq_iff_eq.mp he8
                            subst he
                            exact btClosed_cons_of_ne _ _ (by decide)
                              (ih r2 cs' r' hps hb)
                          · rw [if_neg he8] at h
                            by_cases he9 : (e == 'u') = true
                            · rw [if_pos he9] at h
                              have he : e = 'u' := beq_iff_eq.mp he9
                              subst he
                              cases r2 with
                              | nil => exact Option.noConfusion h
                              | cons x1 t1 =>
                                cases t1 with
                                | nil => exact Option.noConfusion h
                                | cons x2 t2 =>
                                  cases t2 with
                                  | nil => exact Option.noConfusion h
                                  | cons x3 t3 =>
                                    cases t3 with
                                    | nil => exact Option.noConfusion h
                                    | cons x4 r3 =>
                                      dsimp only at h
                                      cases hv1 : hexVal x1 with
                                      | none => rw [hv1] at h; exact Option.noConfusion h
                                      | some a =>
                                        cases hv2 : hexVal x2 with
                                        | none =>
                                          rw [hv1, hv2] at h
                                          exact Option.noConfusion h
                                        | some b =>
                                          cases hv3 : hexVal x3 with
                                          | none =>
                                            rw [hv1, hv2, hv3] at h
                                            exact Option.noConfusion h
                                          | some c2 =>
                                            cases hv4 : hexVal x4 with
                                            | none =>
                                              rw [hv1, hv2, hv3, hv4] at h
                                              exact Option.noConfusion h
                                            | some d =>
                                              rw [hv1, hv2, hv3, hv4] at h
                                              dsimp only at h
                                              obtain ⟨⟨cs', r'⟩, hps⟩ :=
                                                map_eq_some_inv _ _ _ h
                                              rw [hps] at h
                                              simp only [Option.map_some',
                                                Option.some.injEq, Prod.mk.injEq] at h
                                              obtain ⟨-, hrest⟩ := h
                                              subst hrest
                                              obtain ⟨-, -, b1⟩ :=
                                                hexVal_char_facts x1 a hv1
                                              obtain ⟨-, -, b2⟩ :=
                                                hexVal_char_facts x2 b hv2
                                              obtain ⟨-, -, b3⟩ :=
                                                hexVal_char_facts x3 c2 hv3
                                              obtain ⟨-, -, b4⟩ :=
                                                hexVal_char_facts x4 d hv4
                                              exact btClosed_cons_of_ne _ _ (by decide)
                                                (btClosed_cons_of_ne _ _ b1
                                                  (btClosed_cons_of_ne _ _ b2
                                                    (btClosed_cons_of_ne _ _ b3
                                                      (btClosed_cons_of_ne _ _ b4
                                                        (ih r3 cs' r' hps hb)))))
                            · rw [if_neg he9] at h
                              exact Option.noConfusion h
        · rw [if_neg hbs] at h
          by_cases h32 : c.toNat < 32
          · rw [if_pos h32] at h
            exact Option.noConfusion h
          · rw [if_neg h32] at h
            obtain ⟨⟨cs', r'⟩, hps⟩ := map_eq_some_inv _ _ _ h
            rw [hps] at h
            simp only [Option.map_some', Option.some.injEq, Prod.mk.injEq] at h
            obtain ⟨-, hrest⟩ := h
            subst hrest
            by_cases hcb : c = btChar
            · subst hcb
              exact btClosed_cons_bt r (stringBody_closes f r cs' r' hps)
                (ih r cs' r' hps hb)
            · exact btClosed_cons_of_ne c r hcb (ih r cs' r' hps hb)

theorem parseNumberBody_btClosed (neg : Bool) (l1 : List Char) (j : Json)
    (rest : List Char) (h : parseNumberBody neg l1 = some (j, rest))
    (hb : btClosed rest = true) : btClosed l1 = true := by
  cases l1 with
  | nil => simp [parseNumberBody] at h
  | cons c r =>
    simp only [parseNumberBody] at h
    by_cases h0 : (c == '0') = true
    · rw [if_pos h0] at h
      have hc : c = '0' := beq_iff_eq.mp h0
      subst hc
      by_cases hf : isFloatMark r = true
      · rw [if_pos hf] at h
        exact Option.noConfusion h
      · rw [if_neg hf] at h
        cases r with
        | nil =>
          simp only [Option.some.injEq, Prod.mk.injEq] at h
          exact by decide
        | cons d r' =>
          dsimp only at h
          by_cases hd : isDigitChar d = true
          · rw [if_pos hd] at h
            exact Option.noConfusion h
          · rw [if_neg hd] at h
            simp only [Option.some.injEq, Prod.mk.injEq] at h
            obtain ⟨-, hrest⟩ := h
            subst hrest
            exact btClosed_cons_of_ne _ _ (by decide) hb
    · rw [if_neg h0] at h
      by_cases hdg : isDigitChar c = true
      · rw [if_pos hdg] at h
        by_cases hf : isFloatMark ((c :: r).dropWhile isDigitChar) = true
        · rw [if_pos hf] at h
          exact Option.noConfusion h
        · rw [if_neg hf] at h
          simp only [Option.some.injEq, Prod.mk.injEq] at h
          obtain ⟨-, hrest⟩ := h
          rw [← List.takeWhile_append_dropWhile (p := isDigitChar) (l := c :: r)]
          apply btClosed_append_of_ne
          · intro d hd
            exact isDigitChar_ne_bt d (List.mem_takeWhile_imp hd)
          · rw [hrest]
            exact hb
      · rw [if_neg hdg] at h
        exact Option.noConfusion h

theorem parseNumber_btClosed (l : List Char) (j : Json) (rest : List Char)
    (h : parseNumber l = some (j, rest)) (hb : btClosed rest = true) :
    btClosed l = true := by
  cases l with
  | nil => simp [parseNumber] at h
  | cons c0 r0 =>
    simp only [parseNumber] at h
    by_cases hm : (c0 == '-') = true
    · rw [if_pos hm] at h
      have hc0 : c0 = '-' := beq_iff_eq.mp hm
      subst hc0
      exact btClosed_cons_of_ne _ _ (by decide)
        (parseNumberBody_btClosed true r0 j rest h hb)
    · rw [if_neg hm] at h
      exact parseNumberBody_btClosed false (c0 :: r0) j rest h hb

/-- The backtick invariant holds for everything the JSON parser accepts:
every delimiter character of the grammar is not a backtick, and inside
string literals `stringBody_btClosed` applies. -/
theorem parse_btClosed_joint (fuel : Nat) :
    (∀ l j rest, parseValue fuel l = some (j, rest) →
      btClosed rest = true → btClosed l = true) ∧
    (∀ l acc j rest, parseMembers fuel l acc = some (j, rest) →
      btClosed rest = true → btClosed l = true) ∧
    (∀ l acc j rest, parseElems fuel l acc = some (j, rest) →
      btClosed rest = true → btClosed l = true) := by
  induction fuel with
  | zero =>
    refine ⟨?_, ?_, ?_⟩
    · intro l j rest h
      simp [parseValue] at h
    · intro l acc j rest h
      simp [parseMembers] at h
    · intro l acc j rest h
      simp [parseElems] at h
  | succ f ih =>
    obtain ⟨ihv, ihm, ihe⟩ := ih
    refine ⟨?_, ?_, ?_⟩
    · intro l j rest h hb
      simp only [parseValue] at h
      apply btClosed_of_skipWs
      cases hsw : skipWs l with
      | nil =>
        rw [hsw] at h
        exact Option.noConfusion h
      | cons c rest0 =>
        rw [hsw] at h
        dsimp only at h
        by_cases hc1 : (c == lbraceChar) = true
        · rw [if_pos hc1] at h
          have hcne : c ≠ btChar := by
            rw [beq_iff_eq.mp hc1]; decide
          apply btClosed_cons_of_ne c _ hcne
          apply btClosed_of_skipWs
          cases hsw2 : skipWs rest0 with
          | nil =>
            rw [hsw2] at h
            exact Option.noConfusion h
          | cons d rest2 =>
            rw [hsw2] at h
            dsimp only at h
            by_cases hd : (d == rbraceChar) = true
            · rw [if_pos hd] at h
              simp only [Option.some.injEq, Prod.mk.injEq] at h
              obtain ⟨-, hrest⟩ := h
              subst hrest
              exact btClosed_cons_of_ne d _ (by rw [beq_iff_eq.mp hd]; decide) hb
            · rw [if_neg hd] at h
              exact ihm (d :: rest2) [] j rest h hb
        · rw [if_neg hc1] at h
          by_cases hc2 : (c == '[') = true
          · rw [if_pos hc2] at h
            have hcne : c ≠ btChar := by
              rw [beq_iff_eq.mp hc2]; decide
            apply btClosed_cons_of_ne c _ hcne
            apply btClosed_of_skipWs
            cases hsw2 : skipWs rest0 with
            | nil =>
              rw [hsw2] at h
              exact Option.noConfusion h
            | cons d rest2 =>
              rw [hsw2] at h
              dsimp only at h
              by_cases hd : (d == ']') = true
              · rw [if_pos hd] at h
                simp only [Option.some.injEq, Prod.mk.injEq] at h
                obtain ⟨-, hrest⟩ := h
                subst hrest
                exact btClosed_cons_of_ne d _ (by rw [beq_iff_eq.mp hd]; decide) hb
              · rw [if_neg hd] at h
                exact ihe (d :: rest2) [] j rest h hb
          · rw [if_neg hc2] at h
            by_cases hc3 : (c == quoteChar) = true
            · rw [if_pos hc3] at h
              cases hps : parseStringBody (f + 1) rest0 with
              | none =>
                rw [hps] at h
                exact Option.noConfusion h
              | some pr =>
                obtain ⟨sChars, r1⟩ := pr
                rw [hps] at h
                dsimp only at h
                simp only [Option.some.injEq, Prod.mk.injEq] at h
                obtain ⟨-, hrest⟩ := h
                subst hrest
                apply btClosed_cons_of_ne c _ (by rw [beq_iff_eq.mp hc3]; decide)
                exact stringBody_btClosed (f + 1) rest0 sChars r1 hps hb
            · rw [if_neg hc3] at h
              by_cases hc4 : (c == 't') = true
              · rw [if_pos hc4] at h
                by_cases hp4 : isPfx "rue".data rest0 = true
                · rw [if_pos hp4] at h
                  obtain ⟨x, hx⟩ := (isPfx_iff_append _ _).mp hp4
                  simp only [Option.some.injEq, Prod.mk.injEq] at h
                  obtain ⟨-, hrest⟩ := h
                  subst hx
                  have hbx : btClosed x = true := by
                    rw [show x = rest from hrest]
                    exact hb
                  apply btClosed_cons_of_ne c _ (by rw [beq_iff_eq.mp hc4]; decide)
                  show btClosed ('r' :: 'u' :: 'e' :: x) = true
                  exact btClosed_cons_of_ne _ _ (by decide)
                    (btClosed_cons_of_ne _ _ (by decide)
                      (btClosed_cons_of_ne _ _ (by decide) hbx))
                · rw [if_neg hp4] at h
                  exact Option.noConfusion h
              · rw [if_neg hc4] at h
                by_cases hc5 : (c == 'f') = true
                · rw [if_pos hc5] at h
                  by_cases hp5 : isPfx "alse".data rest0 = true
                  · rw [if_pos hp5] at h
                    obtain ⟨x, hx⟩ := (isPfx_iff_append _ _).mp hp5
                    simp only [Option.some.injEq, Prod.mk.injEq] at h
                    obtain ⟨-, hrest⟩ := h
                    subst hx
                    have hbx : btClosed x = true := by
                      rw [show x = rest from hrest]
                      exact hb
                    apply btClosed_cons_of_ne c _ (by rw [beq_iff_eq.mp hc5]; decide)
                    show btClosed ('a' :: 'l' :: 's' :: 'e' :: x) = true
                    exact btClosed_cons_of_ne _ _ (by decide)
                      (btClosed_cons_of_ne _ _ (by decide)
                        (btClosed_cons_of_ne _ _ (by decide)
                          (btClosed_cons_of_ne _ _ (by decide) hbx)))
                  · rw [if_neg hp5] at h
                    exact Option.noConfusion h
                · rw [if_neg hc5] at h
                  by_cases hc6 : (c == 'n') = true
                  · rw [if_pos hc6] at h
                    by_cases hp6 : isPfx "ull".data rest0 = true
                    · rw [if_pos hp6] at h
                      obtain ⟨x, hx⟩ := (isPfx_iff_append _ _).mp hp6
                      simp only [Option.some.injEq, Prod.mk.injEq] at h
                      obtain ⟨-, hrest⟩ := h
                      subst hx
                      have hbx : btClosed x = true := by
                        rw [show x = rest from hrest]
                        exact hb
                      apply btClosed_cons_of_ne c _ (by rw [beq_iff_eq.mp hc6]; decide)
                      show btClosed ('u' :: 'l' :: 'l' :: x) = true
                      exact btClosed_cons_of_ne _ _ (by decide)
                        (btClosed_cons_of_ne _ _ (by decide)
                          (btClosed_cons_of_ne _ _ (by decide) hbx))
                    · rw [if_neg hp6] at h
                      exact Option.noConfusion h
                  · rw [if_neg hc6] at h
                    by_cases hc7 : (c == '-' || isDigitChar c) = true
                    · rw [if_pos hc7] at h
                      exact parseNumber_btClosed (c :: rest0) j rest h hb
                    · rw [if_neg hc7] at h
                      exact Option.noConfusion h
    · intro l acc j rest h hb
      simp only [parseMembers] at h
      apply btClosed_of_skipWs
      cases hsw : skipWs l with
      | nil =>
        rw [hsw] at h
        exact Option.noConfusion h
      | cons c rest0 =>
        rw [hsw] at h
        dsimp only at h
        by_cases hq : (c == quoteChar) = true
        · rw [if_pos hq] at h
          cases hps : parseStringBody (f + 1) rest0 with
          | none =>
            rw [hps] at h
            exact Option.noConfusion h
          | some pr =>
            obtain ⟨kChars, r1⟩ := pr
            rw [hps] at h
            dsimp only at h
            cases hsw2 : skipWs r1 with
            | nil =>
              rw [hsw2] at h
              exact Option.noConfusion h
            | cons d r2 =>
              rw [hsw2] at h
              dsimp only at h
              by_cases hd : (d == ':') = true
              · rw [if_pos hd] at h
                cases hpv : parseValue f r2 with
                | none =>
                  rw [hpv] at h
                  exact Option.noConfusion h
                | some pv =>
                  obtain ⟨v, r3⟩ := pv
                  rw [hpv] at h
                  dsimp only at h
                  cases hsw3 : skipWs r3 with
                  | nil =>
                    rw [hsw3] at h
                    exact Option.noConfusion h
                  | cons e r4 =>
                    rw [hsw3] at h
                    dsimp only at h
                    have chain : e ≠ btChar → btClosed r4 = true →
                        btClosed (c :: rest0) = true := by
                      intro hene h4
                      apply btClosed_cons_of_ne c _ (by rw [beq_iff_eq.mp hq]; decide)
                      apply stringBody_btClosed (f + 1) rest0 kChars r1 hps
                      apply btClosed_of_skipWs
                      rw [hsw2]
                      apply btClosed_cons_of_ne d _ (by rw [beq_iff_eq.mp hd]; decide)
                      apply ihv r2 v r3 hpv
                      apply btClosed_of_skipWs
                      rw [hsw3]
                      exact btClosed_cons_of_ne e _ hene h4
                    by_cases he1 : (e == ',') = true
                    · rw [if_pos he1] at h
                      exact chain (by rw [beq_iff_eq.mp he1]; decide)
                        (ihm r4 (insertField acc (String.mk kChars) v) j rest h hb)
                    · rw [if_neg he1] at h
                      by_cases he2 : (e == rbraceChar) = true
                      · rw [if_pos he2] at h
                        simp only [Option.some.injEq, Prod.mk.injEq] at h
                        obtain ⟨-, hrest⟩ := h
                        subst hrest
                        exact chain (by rw [beq_iff_eq.mp he2]; decide) hb
                      · rw [if_neg he2] at h
                        exact Option.noConfusion h
              · rw [if_neg hd] at h
                exact Option.noConfusion h
        · rw [if_neg hq] at h
          exact Option.noConfusion h
    · intro l acc j rest h hb
      simp only [parseElems] at h
      cases hpv : parseValue f l with
      | none =>
        rw [hpv] at h
        exact Option.noConfusion h
      | some pv =>
        obtain ⟨v, r1⟩ := pv
        rw [hpv] at h
        dsimp only at h
        cases hsw : skipWs r1 with
        | nil =>
          rw [hsw] at h
          exact Option.noConfusion h
        | cons e r2 =>
          rw [hsw] at h
          dsimp only at h
          have chain : e ≠ btChar → btClosed r2 = true → btClosed l = true := by
            intro hene h2
            apply ihv l v r1 hpv
            apply btClosed_of_skipWs
            rw [hsw]
            exact btClosed_cons_of_ne e _ hene h2
          by_cases he1 : (e == ',') = true
          · rw [if_pos he1] at h
            exact chain (by rw [beq_iff_eq.mp he1]; decide)
              (ihe r2 (acc ++ [v]) j rest h hb)
          · rw [if_neg he1] at h
            by_cases he2 : (e == ']') = true
            · rw [if_pos he2] at h
              simp only [Option.some.injEq, Prod.mk.injEq] at h
              obtain ⟨-, hrest⟩ := h
              subst hrest
              exact chain (by rw [beq_iff_eq.mp he2]; decide) hb
            · rw [if_neg he2] at h
              exact Option.noConfusion h

/-- Every string the JSON parser accepts satisfies the backtick
invariant. -/
theorem parseJsonChars_btClosed (l : List Char) (j : Json)
    (h : parseJsonChars l = some j) : btClosed l = true := by
  unfold parseJsonChars at h
  cases hp : parseValue (l.length + 1) l with
  | none =>
    rw [hp] at h
    exact Option.noConfusion h
  | some pr =>
    obtain ⟨j0, rest⟩ := pr
    rw [hp] at h
    dsimp only at h
    by_cases hws : skipWs rest = []
    · exact (parse_btClosed_joint (l.length + 1)).1 l j0 rest hp
        (btClosed_of_skipWs rest (by rw [hws]; rfl))
    · rw [if_neg hws] at h
      exact Option.noConfusion h

theorem closesBeforeNl_jsonTail (r : List Char) :
    closesBeforeNl
      (btChar :: btChar :: 'j' :: 's' :: 'o' :: 'n' :: '\n' :: r) = false := rfl

theorem closesBeforeNl_plainTail (r : List Char) :
    closesBeforeNl (btChar :: btChar :: '\n' :: r) = false := rfl

/-- The json-tagged opener cannot occur in a list satisfying the
backtick invariant: its backtick run is followed by `json` and a
newline, never by a quote. -/
theorem splitFirst_jsonOpen_none_of_btClosed (l : List Char)
    (h : btClosed l = true) : splitFirst jsonOpenChars l = none := by
  induction l with
  | nil => rfl
  | cons c r ih =>
    obtain ⟨hr, hcb⟩ := btClosed_cons_elim c r h
    by_cases hm : isPfx jsonOpenChars (c :: r) = true
    · obtain ⟨x, hx⟩ := (isPfx_iff_append jsonOpenChars (c :: r)).mp hm
      have hx' : c :: r =
          btChar :: btChar :: btChar :: 'j' :: 's' :: 'o' :: 'n' :: '\n' :: x := hx
      injection hx' with hc hr'
      have hcl := hcb hc
      rw [hr', closesBeforeNl_jsonTail] at hcl
      exact Bool.noConfusion hcl
    · exact splitFirst_cons_none _ _ _ (Bool.eq_false_iff.mpr hm) (ih hr)

/-- The untagged opener cannot occur either: its backtick run is
followed directly by a newline. -/
theorem splitFirst_plainOpen_none_of_btClosed (l : List Char)
    (h : btClosed l = true) : splitFirst plainOpenChars l = none := by
  induction l with
  | nil => rfl
  | cons c r ih =>
    obtain ⟨hr, hcb⟩ := btClosed_cons_elim c r h
    by_cases hm : isPfx plainOpenChars (c :: r) = true
    · obtain ⟨x, hx⟩ := (isPfx_iff_append plainOpenChars (c :: r)).mp hm
      have hx' : c :: r = btChar :: btChar :: btChar :: '\n' :: x := hx
      injection hx' with hc hr'
      have hcl := hcb hc
      rw [hr', closesBeforeNl_plainTail] at hcl
      exact Bool.noConfusion hcl
    · exact splitFirst_cons_none _ _ _ (Bool.eq_false_iff.mpr hm) (ih hr)

/-- Nor can the json-tagged opener occur once the closer is appended: a
match would need the payload to end in a backtick run followed by
`json`, again unanswered by any quote. -/
theorem splitFirst_jsonOpen_close_of_btClosed (l : List Char)
    (h : btClosed l = true) :
    splitFirst jsonOpenChars (l ++ closeChars) = none := by
  induction l with
  | nil => rfl
  | cons c r ih =>
    obtain ⟨hr, hcb⟩ := btClosed_cons_elim c r h
    simp only [List.cons_append]
    by_cases hm : isPfx jsonOpenChars (c :: (r ++ closeChars)) = true
    · obtain ⟨x, hx⟩ := (isPfx_iff_append jsonOpenChars _).mp hm
      have hx' : c :: (r ++ closeChars) =
          btChar :: btChar :: btChar :: 'j' :: 's' :: 'o' :: 'n' :: '\n' :: x := hx
      injection hx' with hc hr'
      have hcl := closesBeforeNl_append r closeChars (hcb hc)
      rw [hr', closesBeforeNl_jsonTail] at hcl
      exact Bool.noConfusion hcl
    · exact splitFirst_cons_none _ _ _ (Bool.eq_false_iff.mpr hm) (ih hr)

theorem splitFirst_jsonOpen_plainFence_btClosed (p : List Char)
    (h : btClosed p = true) :
    splitFirst jsonOpenChars (plainOpenChars ++ (p ++ closeChars)) = none := by
  show splitFirst jsonOpenChars
      (btChar :: btChar :: btChar :: '\n' :: (p ++ closeChars)) = none
  apply splitFirst_cons_none _ _ _ (isPfx_jsonOpen_plain4 _)
  apply splitFirst_cons_none _ _ _ (isPfx_jsonOpen_plain3 _)
  apply splitFirst_cons_none _ _ _ (isPfx_jsonOpen_plain2 _)
  apply splitFirst_cons_none _ _ _ (isPfx_jsonOpen_plain1 _)
  exact splitFirst_jsonOpen_close_of_btClosed p h

/-- Extraction from an untagged fence recovers exactly the payload. -/
theorem fencedExtract_plainFence_btClosed (p : List Char)
    (h : btClosed p = true) :
    fencedExtract (plainOpenChars ++ (p ++ closeChars)) = some p := by
  unfold fencedExtract
  rw [splitFirst_jsonOpen_plainFence_btClosed p h]
  dsimp only
  rw [splitFirst_plainOpen_self]
  dsimp only
  rw [splitLast_closer]

/-- A content string satisfying the backtick invariant — in particular
any parseable JSON text — contains no fenced block at all. -/
theorem fencedExtract_none_of_btClosed (l : List Char) (h : btClosed l = true) :
    fencedExtract l = none := by
  unfold fencedExtract
  rw [splitFirst_jsonOpen_none_of_btClosed l h,
      splitFirst_plainOpen_none_of_btClosed l h]

/-- Core of the fence round trip: when the fenced content fails direct
parsing, extraction recovers the payload, and the bare payload contains
no fence of its own, normalization of the fenced content agrees with
normalization of the bare payload. -/
theorem normChars_append_fence (p : String)
    (hbare : fencedExtract p.data = none)
    (opener : List Char)
    (hparse : parseJsonChars (opener ++ (p.data ++ closeChars)) = none)
    (hfe : fencedExtract (opener ++ (p.data ++ closeChars)) = some p.data) :
    normChars (opener ++ (p.data ++ closeChars)) = normChars p.data := by
  unfold normChars
  rw [hparse]
  unfold fencedChars
  rw [hfe, hbare]

theorem longSample_length : longSample.length = 15001 := by
  show (List.replicate 15001 'a').length = 15001
  exact List.length_replicate _ _

/-- Claim C1 (code-bug evidence): when the extraction pipeline completes
before the 10-second timer with zero items, the Coordinator does NOT
return the 200 with a synthetic info record: the substitution
`assignments = { items: [ ... ] }` assigns to the `const` binding
declared at server.js line 211, the TypeError lands in the catch block,
and the single response written is a 500 carrying the TypeError
message. -/
theorem coordinator_zero_items_sends_500 :
    parseAssignmentsResponses true true emptyResult =
      [Resp.serverError constAssignMsg] := rfl

/-- Claim C2 (counterexample): on the model output with a truthy
non-array `items` field, the Normalizer passes the parsed object
through, so the result's `items` field is present but not an array. -/
theorem normalizer_items_can_be_nonarray :
    itemsOf (normalizeContent "\x7b\"items\": 5\x7d") = some (Json.num 5) ∧
    isArrayJson (Json.num 5) = false := ⟨rfl, rfl⟩

/-- Claim C2 (amended): for every model output string the Normalizer
returns normally (never throws) with an object whose `items` field is
present and truthy — hence never missing and never null — though not
necessarily an array, because an object with a truthy non-array `items`
field is passed through unchanged. -/
theorem normalizer_always_shaped (s : String) :
    wellFormed (normalizeContent s) = true := normChars_wellFormed s.data

/-- Claim C3: whenever the primary model call errors or times out, the
secondary model is attempted exactly once (two `create` calls in total,
never more than two), and if the secondary race also fails the Model
Invoker returns the canonical empty result instead of propagating the
error. -/
theorem invoker_fallback_policy (key : Bool) (p s : ModelOutcome) :
    modelCallCount key p ≤ 2 ∧
    (key = true → primaryFails p = true → modelCallCount key p = 2) ∧
    (key = true → primaryFails p = true → secondaryFails p s = true →
      extractAssignmentsFromSyllabus key p s = emptyResult) := by
  refine ⟨?_, ?_, ?_⟩
  · cases key <;> cases p <;> simp [modelCallCount]
  · intro hk hp
    subst hk
    cases p <;> simp_all [primaryFails, modelCallCount]
  · intro hk hp hs
    subst hk
    cases p with
    | ok e => simp [primaryFails] at hp
    | err =>
      cases s with
      | ok e => simp [secondaryFails, primaryFails] at hs
      | err => rfl
      | slow => rfl
    | slow => rfl

/-- Claim C3 witness at a concrete double failure. -/
theorem invoker_fallback_policy_witness :
    modelCallCount true ModelOutcome.err ≤ 2 ∧
    modelCallCount true ModelOutcome.err = 2 ∧
    extractAssignmentsFromSyllabus true ModelOutcome.err ModelOutcome.err = emptyResult :=
  ⟨(invoker_fallback_policy true ModelOutcome.err ModelOutcome.err).1,
   (invoker_fallback_policy true ModelOutcome.err ModelOutcome.err).2.1 rfl rfl,
   (invoker_fallback_policy true ModelOutcome.err ModelOutcome.err).2.2 rfl rfl rfl⟩

/-- Claim C4 (code-bug evidence): the handler writes exactly one
response on every path (the `hasResponded` guard works), but on the
fast path with zero extracted items that single response is the 500
produced by the `const` reassignment TypeError, not the 200 the claim
promises. -/
theorem coordinator_single_response :
    (∀ (v f : Bool) (r : Json), (parseAssignmentsResponses v f r).length = 1) ∧
    (∃ m, parseAssignmentsResponses true true emptyResult = [Resp.serverError m]) := by
  constructor
  · intro v f r
    cases v with
    | false => rfl
    | true =>
      cases f with
      | false => rfl
      | true =>
        show (completionStep handlerStart r).sent.length = 1
        cases r with
        | null => rfl
        | bool b => rfl
        | num n => rfl
        | str s => rfl
        | arr a => rfl
        | obj fs =>
          simp only [completionStep, handlerStart, jsItemsAccess]
          split
          · exact (Bool.false_ne_true (by assumption)).elim
          · split <;> rfl
  · exact ⟨constAssignMsg, rfl⟩

/-- Claim C5 (code-bug evidence): a file whose MIME type is neither PDF
nor DOCX is rejected by the multer `fileFilter`, whose Error flows to
the final error-handling middleware — the caller receives a 500, not
the 400 the claim states. -/
theorem unsupported_type_is_500 :
    (extractTextApp (UploadReq.withFile "text/plain" true)).status = 500 ∧
    (extractTextApp (UploadReq.withFile "text/plain" true)).errorMsg =
      some rejectedTypeMsg := ⟨rfl, rfl⟩

/-- Claim C6: for every model output that parses to an object whose
`items` field is an array, the Normalizer passes the object through and
the resulting `items` are exactly that array, order and content
preserved. -/
theorem normalizer_identity_roundtrip (s : String) (fs : List (String × Json))
    (a : List Json) (hp : parseJson s = some (Json.obj fs))
    (hi : lookupField fs "items" = some (Json.arr a)) :
    itemsOf (normalizeContent s) = some (Json.arr a) := by
  have hl : ladder (Json.obj fs) = .ok (Json.obj fs) := by
    unfold ladder jsItemsAccess
    dsimp only
    rw [hi]
    rfl
  unfold normalizeContent normChars
  rw [show parseJsonChars s.data = some (Json.obj fs) from hp]
  dsimp only
  rw [hl]
  dsimp only
  unfold itemsOf
  exact hi

/-- Claim C6 witness: a concrete well-formed model output round-trips
through the Normalizer unchanged. -/
theorem normalizer_identity_roundtrip_witness :
    itemsOf (normalizeContent "\x7b\"items\": [\x7b\"title\": \"Quiz 2\"\x7d]\x7d") =
      some (Json.arr [Json.obj [("title", Json.str "Quiz 2")]]) :=
  normalizer_identity_roundtrip _
    [("items", Json.arr [Json.obj [("title", Json.str "Quiz 2")]])]
    [Json.obj [("title", Json.str "Quiz 2")]] rfl rfl

/-- Claim C7: for every JSON payload — every string the JSON parser
accepts, including payloads carrying raw backticks inside their string
literals — normalizing the payload wrapped in a fenced code block
(json-tagged or untagged) yields the same ExtractionResult as
normalizing the bare payload.  A successful parse forces every backtick
into a string literal, whose closing quote arrives before any literal
newline, so the payload can contain no fence delimiter of its own. -/
theorem normalizer_fence_roundtrip (p : String) (j : Json)
    (h : parseJson p = some j) :
    normalizeContent (jsonFenceWrap p) = normalizeContent p ∧
    normalizeContent (plainFenceWrap p) = normalizeContent p := by
  have hbc : btClosed p.data = true := parseJsonChars_btClosed p.data j h
  have hbare : fencedExtract p.data = none := fencedExtract_none_of_btClosed p.data hbc
  constructor
  · show normChars (jsonOpenChars ++ (p.data ++ closeChars)) = normChars p.data
    exact normChars_append_fence p hbare jsonOpenChars
      (parseJsonChars_btHead _) (fencedExtract_jsonFence p.data)
  · show normChars (plainOpenChars ++ (p.data ++ closeChars)) = normChars p.data
    exact normChars_append_fence p hbare plainOpenChars
      (parseJsonChars_btHead _) (fencedExtract_plainFence_btClosed p.data hbc)

/-- Claim C7 witness at a concrete payload that carries a raw backtick
inside a string literal. -/
theorem normalizer_fence_roundtrip_witness :
    normalizeContent (jsonFenceWrap "\x7b\"a\": \"\x60\"\x7d") =
      normalizeContent "\x7b\"a\": \"\x60\"\x7d" ∧
    normalizeContent (plainFenceWrap "\x7b\"a\": \"\x60\"\x7d") =
      normalizeContent "\x7b\"a\": \"\x60\"\x7d" :=
  normalizer_fence_roundtrip _ (Json.obj [("a", Json.str "\x60")]) rfl

/-- Claim C8 (counterexample): for a text one character over the
ceiling, the built excerpt is NOT the first 15,000 characters followed
by the literal marker "[text truncated]": the code appends
"... [text truncated for token limit]" instead. -/
theorem truncation_marker_not_spec_literal :
    (truncatedText longSample ==
      String.mk (longSample.data.take MAX_LENGTH ++ "[text truncated]".data)) = false := by
  apply beq_eq_false_iff_ne.mpr
  have hgt : longSample.length > MAX_LENGTH := by
    rw [longSample_length]; decide
  have htr : truncatedText longSample =
      String.mk (longSample.data.take MAX_LENGTH ++ truncMarker.data) := by
    unfold truncatedText
    exact if_pos hgt
  intro h
  rw [htr] at h
  have hd : longSample.data.take MAX_LENGTH ++ truncMarker.data =
      longSample.data.take MAX_LENGTH ++ "[text truncated]".data :=
    congrArg String.data h
  have hlen := congrArg List.length hd
  simp only [List.length_append] at hlen
  have hm := Nat.add_left_cancel hlen
  exact absurd hm (by decide)

/-- Claim C8 (amended): the Prompt Builder is the fixed template followed
by the text itself when the text has at most 15,000 characters, and by
exactly the first 15,000 characters followed by the marker
"... [text truncated for token limit]" otherwise; the prompt is a pure
function of the input text and the fixed template. -/
theorem prompt_embeds_text_with_cap (t : String) :
    (t.length ≤ MAX_LENGTH → buildPrompt t = promptHead ++ t) ∧
    (MAX_LENGTH < t.length →
      buildPrompt t = promptHead ++ String.mk (t.data.take MAX_LENGTH ++ truncMarker.data)) := by
  constructor
  · intro hle
    unfold buildPrompt truncatedText
    rw [if_neg (not_lt.mpr hle)]
  · intro hgt
    unfold buildPrompt truncatedText
    rw [if_pos hgt]

/-- Claim C8 witness: a short text is embedded unchanged; the over-long
sample is cut at the ceiling with the marker appended. -/
theorem prompt_embeds_text_with_cap_witness :
    buildPrompt "abc" = promptHead ++ "abc" ∧
    buildPrompt longSample =
      promptHead ++ String.mk (longSample.data.take MAX_LENGTH ++ truncMarker.data) :=
  ⟨(prompt_embeds_text_with_cap "abc").1 (by decide),
   (prompt_embeds_text_with_cap longSample).2 (by rw [longSample_length]; decide)⟩

/-- Claim C9: every model output that parses as a bare JSON array is
wrapped by the Normalizer as an object with exactly that array under
`items`, unchanged — the code wraps every array, so in particular arrays
of record-like objects. -/
theorem normalizer_wraps_bare_array (s : String) (a : List Json)
    (hp : parseJson s = some (Json.arr a)) :
    normalizeContent s = Json.obj [("items", Json.arr a)] := by
  unfold normalizeContent normChars
  rw [show parseJsonChars s.data = some (Json.arr a) from hp]
  rfl

/-- Claim C9 witness at a concrete record-like array. -/
theorem normalizer_wraps_bare_array_witness :
    normalizeContent "[\x7b\"title\": \"HW 1\"\x7d]" =
      Json.obj [("items", Json.arr [Json.obj [("title", Json.str "HW 1")]])] :=
  normalizer_wraps_bare_array _ _ rfl

theorem completion_fast_obj (fs : List (String × Json)) :
    parseAssignmentsResponses true true (Json.obj fs) =
      if jsCount (lookupField fs "items") = some 0
      then [Resp.serverError constAssignMsg]
      else [Resp.okJson (Json.obj fs)] := by
  by_cases hz : jsCount (lookupField fs "items") = some 0
  · simp [parseAssignmentsResponses, completionStep, handlerStart, jsItemsAccess, catchWrite, hz]
  · simp [parseAssignmentsResponses, completionStep, handlerStart, jsItemsAccess, catchWrite, hz]

/-- A well-formed extraction result can only drive the handler to a 500
through the const-reassignment TypeError of the zero-items substitution,
and only on the fast path. -/
theorem handler_500_only_const (r : Json) (hw : wellFormed r = true) (f : Bool) (m : String)
    (h : parseAssignmentsResponses true f r = [Resp.serverError m]) :
    f = true ∧ m = constAssignMsg := by
  cases f with
  | false =>
    have hs : parseAssignmentsResponses true false r = [Resp.accepted] := rfl
    rw [hs] at h
    simp at h
  | true =>
    refine ⟨rfl, ?_⟩
    cases r with
    | null => simp [wellFormed, itemsOf, jsTruthyOpt] at hw
    | bool b => simp [wellFormed, itemsOf, jsTruthyOpt] at hw
    | num n => simp [wellFormed, itemsOf, jsTruthyOpt] at hw
    | str s2 => simp [wellFormed, itemsOf, jsTruthyOpt] at hw
    | arr a => simp [wellFormed, itemsOf, jsTruthyOpt] at hw
    | obj fs =>
      rw [completion_fast_obj fs] at h
      cases hlk : lookupField fs "items" with
      | none =>
        simp only [wellFormed, itemsOf] at hw
        rw [hlk] at hw
        simp [jsTruthyOpt] at hw
      | some v =>
        have htv : truthy v = true := by
          simp only [wellFormed, itemsOf] at hw
          rw [hlk] at hw
          simpa [jsTruthyOpt] using hw
        rw [hlk] at h
        cases v with
        | null => simp [truthy] at htv
        | arr a =>
          by_cases hz : a.length = 0
          · rw [if_pos (by simp [jsCount, truthy, hz])] at h
            simp at h
            exact h.symm
          · rw [if_neg (by simp [jsCount, truthy]; exact fun he => hz (by rw [he]; rfl))] at h
            simp at h
        | bool b =>
          rw [if_neg (by simp [jsCount, htv])] at h
          simp at h
        | num n =>
          rw [if_neg (by simp [jsCount, htv])] at h
          simp at h
        | str s3 =>
          rw [if_neg (by simp [jsCount, htv])] at h
          simp at h
        | obj g =>
          rw [if_neg (by simp [jsCount, htv])] at h
          simp at h

/-- Claim C10 (amended): for every model behaviour — missing API key,
model error, timeout, response without usable choices, arbitrary
content — `extractAssignmentsFromSyllabus` returns a well-formed value
rather than throwing; consequently the Coordinator's catch-block 500 is
never triggered by an exception of the extraction call, and the only way
it fires is the Coordinator's own const-reassignment TypeError on the
fast zero-items path. -/
theorem extraction_never_throws (key : Bool) (p s : ModelOutcome) (f : Bool) :
    wellFormed (extractAssignmentsFromSyllabus key p s) = true ∧
    (∀ m, parseAssignmentsResponses true f (extractAssignmentsFromSyllabus key p s) =
        [Resp.serverError m] → f = true ∧ m = constAssignMsg) := by
  have hwf : wellFormed (extractAssignmentsFromSyllabus key p s) = true := by
    cases key with
    | false => rfl
    | true =>
      cases p with
      | ok e =>
        cases e with
        | none => rfl
        | some content => exact normChars_wellFormed content.data
      | err =>
        cases s with
        | ok e =>
          cases e with
          | none => rfl
          | some content => exact normChars_wellFormed content.data
        | err => rfl
        | slow => rfl
      | slow => rfl
  exact ⟨hwf, fun m h => handler_500_only_const _ hwf f m h⟩

/-- Claim C10 (counterexample): the catch-block 500 branch IS reachable:
with both model attempts failing and a fast completion, the extraction
returns the canonical empty result and the zero-items substitution
throws, so the handler answers 500. -/
theorem coordinator_500_branch_reached :
    parseAssignmentsResponses true true
      (extractAssignmentsFromSyllabus true ModelOutcome.err ModelOutcome.err) =
      [Resp.serverError constAssignMsg] := rfl

/-- Claim C10 witness at a concrete model behaviour. -/
theorem extraction_never_throws_witness :
    wellFormed (extractAssignmentsFromSyllabus true ModelOutcome.err ModelOutcome.err) = true ∧
    (true = true ∧ constAssignMsg = constAssignMsg) :=
  ⟨(extraction_never_throws true ModelOutcome.err ModelOutcome.err true).1,
   (extraction_never_throws true ModelOutcome.err ModelOutcome.err true).2 constAssignMsg rfl⟩
